import Mathlib

/-!
Verification of the phoenix-types order-book index structures.

The definitions below are a shallow embedding of the Rust sources:
  * `src/enums.rs`     — `Side` and `Side::from_order_sequence_number`
  * `src/market.rs`    — `FIFOOrderId` and its `PartialOrd`/`Ord` impls,
                         `FIFORestingOrder`, `TraderState`, the `Market`
                         trait (in particular `get_ladder`) and the
                         `FIFOMarket` accessors
  * `src/dispatch.rs`  — `dispatch_market`, `dispatch_market_mut`,
                         `load_with_dispatch`, `load_with_dispatch_mut`,
                         `get_market_size`

Machine integers (`u64`, `u32`) are modelled as `Nat`; where a claim
depends on the 64-bit range, the theorem carries explicit `< 2 ^ 64`
bounds.  Fallible operations return `Option`.
-/

namespace Phoenix

/-- The two sides of the book (`src/enums.rs`, `enum Side`). -/
inductive Side where
  | Bid
  | Ask
deriving DecidableEq, Repr

/-- Model of `u64::leading_zeros` for a value `n < 2 ^ 64`: 64 minus the
bit length of `n`. -/
def u64LeadingZeros (n : Nat) : Nat :=
  if n = 0 then 64 else 64 - (Nat.log2 n + 1)

/-- `Side::from_order_sequence_number` (`src/enums.rs` lines 30–35):
`match order_sequence_number.leading_zeros() { 0 => Side::Bid, _ => Side::Ask }`. -/
def Side.from_order_sequence_number (order_sequence_number : Nat) : Side :=
  match u64LeadingZeros order_sequence_number with
  | 0 => Side.Bid
  | _ => Side.Ask

/-- `FIFOOrderId` (`src/market.rs` lines 318–335): an order's key in the
book, a pair of price (in quote ticks per base unit) and sequence number
(whose top bit encodes the side). -/
structure FIFOOrderId where
  num_quote_ticks_per_base_unit : Nat
  order_sequence_number : Nat
deriving DecidableEq, Repr

/-- `u64` is totally ordered, so its `partial_cmp` always succeeds:
`x.partial_cmp(&y) = Some(x.cmp(&y))`. -/
def u64PartialCmp (x y : Nat) : Option Ordering :=
  some (compare x y)

/-- `<FIFOOrderId as PartialOrd>::partial_cmp` (`src/market.rs` lines
378–407).  The side of `self` selects the branch; on the bid side both
the tick and the sequence comparison are reversed (`other` against
`self`), on the ask side both run forward.  If the tick comparison is
`Equal` the sequence comparison decides. -/
def FIFOOrderId.partialCmp (self other : FIFOOrderId) : Option Ordering :=
  match Side.from_order_sequence_number self.order_sequence_number with
  | Side.Bid =>
    (u64PartialCmp other.num_quote_ticks_per_base_unit
        self.num_quote_ticks_per_base_unit).bind fun tick_cmp =>
      (u64PartialCmp other.order_sequence_number
          self.order_sequence_number).bind fun seq_cmp =>
        if tick_cmp = Ordering.eq then some seq_cmp else some tick_cmp
  | Side.Ask =>
    (u64PartialCmp self.num_quote_ticks_per_base_unit
        other.num_quote_ticks_per_base_unit).bind fun tick_cmp =>
      (u64PartialCmp self.order_sequence_number
          other.order_sequence_number).bind fun seq_cmp =>
        if tick_cmp = Ordering.eq then some seq_cmp else some tick_cmp

/-- Helper: `u64LeadingZeros n = 0` exactly on the u64 values whose top
bit is set. -/
theorem u64LeadingZeros_eq_zero_iff {n : Nat} (hn : n < 2 ^ 64) :
    u64LeadingZeros n = 0 ↔ 2 ^ 63 ≤ n := by
  unfold u64LeadingZeros
  rcases Nat.eq_zero_or_pos n with h0 | hpos
  · subst h0
    simp
  · have hne : n ≠ 0 := Nat.pos_iff_ne_zero.mp hpos
    simp only [hne, if_false]
    constructor
    · intro h
      have hlog : 63 ≤ Nat.log2 n := by omega
      calc 2 ^ 63 ≤ 2 ^ Nat.log2 n := Nat.pow_le_pow_right (by norm_num) hlog
        _ ≤ n := Nat.log2_self_le hne
    · intro h
      have hlog_ge : 63 ≤ Nat.log2 n := (Nat.le_log2 hne).mpr h
      have hlog_lt : Nat.log2 n < 64 := (Nat.log2_lt hne).mpr hn
      omega

/-- Helper: side of a u64 sequence number, characterised by the top bit. -/
theorem side_eq_bid_iff {n : Nat} (hn : n < 2 ^ 64) :
    Side.from_order_sequence_number n = Side.Bid ↔ 2 ^ 63 ≤ n := by
  unfold Side.from_order_sequence_number
  rcases h : u64LeadingZeros n with _ | k
  · simpa using (u64LeadingZeros_eq_zero_iff hn).mp h
  · have : ¬ (2 ^ 63 ≤ n) := by
      intro hle
      have := (u64LeadingZeros_eq_zero_iff hn).mpr hle
      omega
    simpa using this

/-- Helper: a sequence number below `2 ^ 63` is on the ask side. -/
theorem side_eq_ask_of_lt {n : Nat} (hn : n < 2 ^ 63) :
    Side.from_order_sequence_number n = Side.Ask := by
  have hn64 : n < 2 ^ 64 := lt_of_lt_of_le hn (Nat.pow_le_pow_right (by norm_num) (by norm_num))
  rcases h : Side.from_order_sequence_number n with _ | _
  · exact absurd ((side_eq_bid_iff hn64).mp h) (by omega)
  · rfl

/-- Helper: a sequence number with the top bit set is on the bid side. -/
theorem side_eq_bid_of_le {n : Nat} (h63 : 2 ^ 63 ≤ n) (hn : n < 2 ^ 64) :
    Side.from_order_sequence_number n = Side.Bid :=
  (side_eq_bid_iff hn).mpr h63

/-- C4: `Side::from_order_sequence_number` returns `Bid` exactly when the
top bit of its u64 argument is set (zero leading zeros), and `Ask`
otherwise; in particular `Ask` at `0` and `Bid` at `u64::MAX`. -/
theorem side_from_order_sequence_number_spec (n : Nat) (hn : n < 2 ^ 64) :
    (Side.from_order_sequence_number n = Side.Bid ↔
      (u64LeadingZeros n = 0 ∧ 2 ^ 63 ≤ n)) ∧
    (Side.from_order_sequence_number n = Side.Ask ↔ n < 2 ^ 63) ∧
    Side.from_order_sequence_number 0 = Side.Ask ∧
    Side.from_order_sequence_number (2 ^ 64 - 1) = Side.Bid := by
  refine ⟨?_, ?_, ?_, ?_⟩
  · rw [side_eq_bid_iff hn]
    constructor
    · intro h
      exact ⟨(u64LeadingZeros_eq_zero_iff hn).mpr h, h⟩
    · exact And.right
  · constructor
    · intro h
      by_contra hc
      have := side_eq_bid_of_le (by omega) hn
      rw [this] at h
      exact absurd h (by simp)
    · intro h
      exact side_eq_ask_of_lt h
  · rfl
  · have h63 : 2 ^ 63 ≤ 2 ^ 64 - 1 := by norm_num
    exact side_eq_bid_of_le h63 (by norm_num)

/-- Witness for C4 at `n = 3`. -/
theorem side_from_order_sequence_number_spec_witness :
    (3 : Nat) < 2 ^ 64 ∧ Side.from_order_sequence_number 3 = Side.Ask := by
  have h := side_from_order_sequence_number_spec 3 (by norm_num)
  exact ⟨by norm_num, h.2.1.mpr (by norm_num)⟩

/-- C10: `partial_cmp` on `FIFOOrderId` never returns `None` (so the
`unwrap` inside `Ord::cmp` cannot panic), for every pair of keys, mixed
sides included. -/
theorem partialCmp_isSome (a b : FIFOOrderId) :
    (FIFOOrderId.partialCmp a b).isSome = true := by
  unfold FIFOOrderId.partialCmp u64PartialCmp
  rcases Side.from_order_sequence_number a.order_sequence_number with _ | _ <;>
    simp only [Option.some_bind] <;> split <;> rfl

/-- `FIFORestingOrder` (`src/market.rs` lines 415–429): the payload
stored in the book maps. -/
structure FIFORestingOrder where
  trader_index : Nat
  num_base_lots : Nat
deriving DecidableEq, Repr

/-- `LadderOrder` (`src/market.rs` lines 21–27): one aggregated price
level of the ladder view. -/
structure LadderOrder where
  price_in_ticks : Nat
  size_in_base_lots : Nat
deriving DecidableEq, Repr

/-- `Ladder` (`src/market.rs` lines 62–68): the aggregated book view. -/
structure Ladder where
  bids : List LadderOrder
  asks : List LadderOrder
deriving DecidableEq, Repr

/-- The inner loop of `Market::get_ladder` (`src/market.rs` lines
93–115) over one side's iteration sequence: `book` is the output built
so far; each `(key, order)` entry either starts the output, merges into
the last level when the price matches, stops the side when a new price
would exceed `levels`, or appends a new level. -/
def ladderSideLoop (levels : Nat) (book : List LadderOrder) :
    List (FIFOOrderId × FIFORestingOrder) → List LadderOrder
  | [] => book
  | (key, order) :: rest =>
    let price := key.num_quote_ticks_per_base_unit
    let size := order.num_base_lots
    match book.getLast? with
    | none => ladderSideLoop levels [⟨price, size⟩] rest
    | some last =>
      if last.price_in_ticks = price then
        ladderSideLoop levels
          (book.dropLast ++ [⟨last.price_in_ticks, last.size_in_base_lots + size⟩]) rest
      else if book.length = levels then book
      else ladderSideLoop levels (book ++ [⟨price, size⟩]) rest

/-- `Market::get_ladder` (`src/market.rs` lines 84–119), over the two
iteration sequences of the side books: empty for `levels == 0`,
otherwise each side is aggregated by `ladderSideLoop`. -/
def get_ladder (levels : Nat)
    (bidEntries askEntries : List (FIFOOrderId × FIFORestingOrder)) : Ladder :=
  if levels = 0 then ⟨[], []⟩
  else ⟨ladderSideLoop levels [] bidEntries, ladderSideLoop levels [] askEntries⟩

/-- Specification-side aggregation: collapse the contiguous run of
entries whose price equals `last`'s price into `last`, then aggregate
the remaining runs. -/
def aggFrom (last : LadderOrder) :
    List (FIFOOrderId × FIFORestingOrder) → List LadderOrder
  | [] => [last]
  | (key, order) :: rest =>
    if last.price_in_ticks = key.num_quote_ticks_per_base_unit then
      aggFrom ⟨last.price_in_ticks, last.size_in_base_lots + order.num_base_lots⟩ rest
    else
      last :: aggFrom ⟨key.num_quote_ticks_per_base_unit, order.num_base_lots⟩ rest

/-- Specification-side aggregation of a whole iteration sequence into
price levels: one level per contiguous equal-price run, whose quantity
is the sum of the run's sizes, in iteration order. -/
def aggRuns : List (FIFOOrderId × FIFORestingOrder) → List LadderOrder
  | [] => []
  | (key, order) :: rest =>
    aggFrom ⟨key.num_quote_ticks_per_base_unit, order.num_base_lots⟩ rest

/-- Loop invariant for `ladderSideLoop`: with a non-empty partial book
`front ++ [last]` of length at most `levels`, the loop extends `front`
by the capped aggregation of the remaining entries starting from
`last`. -/
theorem ladderSideLoop_concat (levels : Nat)
    (entries : List (FIFOOrderId × FIFORestingOrder)) :
    ∀ (front : List LadderOrder) (last : LadderOrder),
      front.length + 1 ≤ levels →
      ladderSideLoop levels (front ++ [last]) entries =
        front ++ (aggFrom last entries).take (levels - front.length) := by
  induction entries with
  | nil =>
    intro front last h
    have hk : (1 : Nat) ≤ levels - front.length := by omega
    rw [ladderSideLoop, aggFrom, List.take_of_length_le (by simpa using hk)]
  | cons e rest ih =>
    rcases e with ⟨key, order⟩
    intro front last h
    rw [ladderSideLoop]
    simp only [List.getLast?_concat]
    by_cases hp : last.price_in_ticks = key.num_quote_ticks_per_base_unit
    · rw [if_pos hp, List.dropLast_concat]
      rw [ih front ⟨last.price_in_ticks,
        last.size_in_base_lots + order.num_base_lots⟩ h]
      rw [aggFrom, if_pos hp]
    · rw [if_neg hp]
      by_cases hl : (front ++ [last]).length = levels
      · rw [if_pos hl]
        have hk : levels - front.length = 1 := by
          simp only [List.length_append, List.length_cons, List.length_nil] at hl
          omega
        rw [aggFrom, if_neg hp, hk, List.take_succ_cons, List.take_zero]
      · rw [if_neg hl]
        have hlen : front.length + 1 < levels := by
          simp only [List.length_append, List.length_cons, List.length_nil] at hl
          omega
        rw [ih (front ++ [last]) ⟨key.num_quote_ticks_per_base_unit,
          order.num_base_lots⟩ (by simpa using hlen)]
        rw [aggFrom, if_neg hp]
        have hk : levels - front.length = (levels - (front ++ [last]).length) + 1 := by
          simp only [List.length_append, List.length_cons, List.length_nil]
          omega
        rw [hk, List.take_succ_cons, List.append_assoc]
        rfl

/-- For nonzero depth, the loop started on an empty book computes the
first `levels` aggregated runs of the iteration sequence. -/
theorem ladderSideLoop_eq_take (levels : Nat) (h : levels ≠ 0)
    (entries : List (FIFOOrderId × FIFORestingOrder)) :
    ladderSideLoop levels [] entries = (aggRuns entries).take levels := by
  cases entries with
  | nil => rw [ladderSideLoop, aggRuns, List.take_nil]
  | cons e rest =>
    rcases e with ⟨key, order⟩
    rw [ladderSideLoop]
    simp only [List.getLast?_nil]
    have hfront : ([(⟨key.num_quote_ticks_per_base_unit,
        order.num_base_lots⟩ : LadderOrder)]) =
        ([] : List LadderOrder) ++ [⟨key.num_quote_ticks_per_base_unit,
        order.num_base_lots⟩] := rfl
    rw [hfront, ladderSideLoop_concat levels rest []
      ⟨key.num_quote_ticks_per_base_unit, order.num_base_lots⟩ (by simpa using Nat.one_le_iff_ne_zero.mpr h)]
    rw [aggRuns]
    simp

/-- The example bid-side iteration sequence from the spec: price/size
pairs (100,5), (100,3), (90,2) in priority order. -/
def exampleBidEntries : List (FIFOOrderId × FIFORestingOrder) :=
  [(⟨100, 1⟩, ⟨0, 5⟩), (⟨100, 2⟩, ⟨0, 3⟩), (⟨90, 3⟩, ⟨0, 2⟩)]

/-- C2: `get_ladder 0` is empty; for nonzero `levels` each side of the
ladder is the first `levels` aggregated contiguous equal-price runs of
that side's iteration sequence (so at most `levels` levels per side, in
iteration order, each level summing its run's sizes); and on the example
bid entries (100,5), (100,3), (90,2), depths 2, 1, 0 yield
[(100,8), (90,2)], [(100,8)], []. -/
theorem get_ladder_spec
    (bidEntries askEntries : List (FIFOOrderId × FIFORestingOrder))
    (levels : Nat) (h : levels ≠ 0) :
    get_ladder 0 bidEntries askEntries = ⟨[], []⟩ ∧
    (get_ladder levels bidEntries askEntries).bids = (aggRuns bidEntries).take levels ∧
    (get_ladder levels bidEntries askEntries).asks = (aggRuns askEntries).take levels ∧
    (get_ladder levels bidEntries askEntries).bids.length ≤ levels ∧
    (get_ladder levels bidEntries askEntries).asks.length ≤ levels ∧
    (get_ladder 2 exampleBidEntries []).bids = [⟨100, 8⟩, ⟨90, 2⟩] ∧
    (get_ladder 1 exampleBidEntries []).bids = [⟨100, 8⟩] ∧
    (get_ladder 0 exampleBidEntries []).bids = [] := by
  have hb : (get_ladder levels bidEntries askEntries).bids =
      (aggRuns bidEntries).take levels := by
    rw [get_ladder, if_neg h]
    exact ladderSideLoop_eq_take levels h bidEntries
  have ha : (get_ladder levels bidEntries askEntries).asks =
      (aggRuns askEntries).take levels := by
    rw [get_ladder, if_neg h]
    exact ladderSideLoop_eq_take levels h askEntries
  refine ⟨by rw [get_ladder, if_pos rfl], hb, ha, ?_, ?_, by decide, by decide, by decide⟩
  · rw [hb]
    exact List.length_take_le _ _
  · rw [ha]
    exact List.length_take_le _ _

/-- Witness for C2 at the example entries and depth 2. -/
theorem get_ladder_spec_witness :
    (2 : Nat) ≠ 0 ∧
    (get_ladder 2 exampleBidEntries []).bids = [⟨100, 8⟩, ⟨90, 2⟩] := by
  have h := get_ladder_spec exampleBidEntries [] 2 (by norm_num)
  exact ⟨by norm_num, h.2.2.2.2.2.1⟩

/-- `MarketSizeParams` (`src/dispatch.rs`, the tuple read from the
market header): the three capacity parameters keying the dispatch. -/
structure MarketSizeParams where
  bids_size : Nat
  asks_size : Nat
  num_seats : Nat
deriving DecidableEq, Repr

/-- The six fixed-capacity `FIFOMarket` instantiations enumerated by the
dispatch match arms (`src/dispatch.rs`). -/
inductive MarketVariant where
  | m512_512_256
  | m2048_2048_4096
  | m4096_4096_8192
  | m1024_1024_128
  | m2048_2048_128
  | m4096_4096_128
deriving DecidableEq, Repr

/-- The set of supported parameter tuples, as enumerated by the match
arms of `dispatch_market` / `dispatch_market_mut` / `get_market_size`. -/
def supportedTuples : List (Nat × Nat × Nat) :=
  [(512, 512, 256), (1024, 1024, 128), (2048, 2048, 128),
   (2048, 2048, 4096), (4096, 4096, 128), (4096, 4096, 8192)]

/-- Modelled from the spec: `ZeroCopy::load_bytes` lives in the external
`sokoban` crate (not under src/).  Per §4.3/§7 a buffer is interpretable
exactly when its length fits the requested instantiation (alignment has
no counterpart for an abstract byte list); otherwise the load yields an
empty result.  `size` is the byte size of the target instantiation. -/
def load_bytes (size : Nat) (bytes : List Nat) : Option Unit :=
  if bytes.length = size then some () else none

/-- Modelled from the spec: the mutable loader `load_mut_bytes`, with
the same interpretability condition as `load_bytes`. -/
def load_mut_bytes (size : Nat) (bytes : List Nat) : Option Unit :=
  if bytes.length = size then some () else none

/-- `dispatch_market` (`src/dispatch.rs` lines 75–96): match the tuple
against the six known instantiations, load the buffer as that
instantiation (propagating its failure), and wrap the handle; any other
tuple falls to the default arm and returns `None`.  `sz b a s` stands
for `std::mem::size_of::<FIFOMarket<b, a, s>>`, whose value is
determined by the external `sokoban` tree layout and is therefore a
parameter of the model. -/
def dispatch_market (sz : Nat → Nat → Nat → Nat) (p : MarketSizeParams)
    (bytes : List Nat) : Option MarketVariant :=
  if p.bids_size = 512 ∧ p.asks_size = 512 ∧ p.num_seats = 256 then
    (load_bytes (sz 512 512 256) bytes).map fun _ => MarketVariant.m512_512_256
  else if p.bids_size = 2048 ∧ p.asks_size = 2048 ∧ p.num_seats = 4096 then
    (load_bytes (sz 2048 2048 4096) bytes).map fun _ => MarketVariant.m2048_2048_4096
  else if p.bids_size = 4096 ∧ p.asks_size = 4096 ∧ p.num_seats = 8192 then
    (load_bytes (sz 4096 4096 8192) bytes).map fun _ => MarketVariant.m4096_4096_8192
  else if p.bids_size = 1024 ∧ p.asks_size = 1024 ∧ p.num_seats = 128 then
    (load_bytes (sz 1024 1024 128) bytes).map fun _ => MarketVariant.m1024_1024_128
  else if p.bids_size = 2048 ∧ p.asks_size = 2048 ∧ p.num_seats = 128 then
    (load_bytes (sz 2048 2048 128) bytes).map fun _ => MarketVariant.m2048_2048_128
  else if p.bids_size = 4096 ∧ p.asks_size = 4096 ∧ p.num_seats = 128 then
    (load_bytes (sz 4096 4096 128) bytes).map fun _ => MarketVariant.m4096_4096_128
  else none

/-- `dispatch_market_mut` (`src/dispatch.rs` lines 23–54): identical
match structure over the mutable loader. -/
def dispatch_market_mut (sz : Nat → Nat → Nat → Nat) (p : MarketSizeParams)
    (bytes : List Nat) : Option MarketVariant :=
  if p.bids_size = 512 ∧ p.asks_size = 512 ∧ p.num_seats = 256 then
    (load_mut_bytes (sz 512 512 256) bytes).map fun _ => MarketVariant.m512_512_256
  else if p.bids_size = 2048 ∧ p.asks_size = 2048 ∧ p.num_seats = 4096 then
    (load_mut_bytes (sz 2048 2048 4096) bytes).map fun _ => MarketVariant.m2048_2048_4096
  else if p.bids_size = 4096 ∧ p.asks_size = 4096 ∧ p.num_seats = 8192 then
    (load_mut_bytes (sz 4096 4096 8192) bytes).map fun _ => MarketVariant.m4096_4096_8192
  else if p.bids_size = 1024 ∧ p.asks_size = 1024 ∧ p.num_seats = 128 then
    (load_mut_bytes (sz 1024 1024 128) bytes).map fun _ => MarketVariant.m1024_1024_128
  else if p.bids_size = 2048 ∧ p.asks_size = 2048 ∧ p.num_seats = 128 then
    (load_mut_bytes (sz 2048 2048 128) bytes).map fun _ => MarketVariant.m2048_2048_128
  else if p.bids_size = 4096 ∧ p.asks_size = 4096 ∧ p.num_seats = 128 then
    (load_mut_bytes (sz 4096 4096 128) bytes).map fun _ => MarketVariant.m4096_4096_128
  else none

/-- `load_with_dispatch` (`src/dispatch.rs` lines 68–73): delegates to
`dispatch_market`. -/
def load_with_dispatch (sz : Nat → Nat → Nat → Nat) (p : MarketSizeParams)
    (bytes : List Nat) : Option MarketVariant :=
  dispatch_market sz p bytes

/-- `load_with_dispatch_mut` (`src/dispatch.rs` lines 16–21): delegates
to `dispatch_market_mut`. -/
def load_with_dispatch_mut (sz : Nat → Nat → Nat → Nat) (p : MarketSizeParams)
    (bytes : List Nat) : Option MarketVariant :=
  dispatch_market_mut sz p bytes

/-- `get_market_size` (`src/dispatch.rs` lines 99–114): the byte size of
the instantiation selected by the tuple, `None` on the default arm. -/
def get_market_size (sz : Nat → Nat → Nat → Nat) (p : MarketSizeParams) :
    Option Nat :=
  if p.bids_size = 512 ∧ p.asks_size = 512 ∧ p.num_seats = 256 then
    some (sz 512 512 256)
  else if p.bids_size = 2048 ∧ p.asks_size = 2048 ∧ p.num_seats = 4096 then
    some (sz 2048 2048 4096)
  else if p.bids_size = 4096 ∧ p.asks_size = 4096 ∧ p.num_seats = 8192 then
    some (sz 4096 4096 8192)
  else if p.bids_size = 1024 ∧ p.asks_size = 1024 ∧ p.num_seats = 128 then
    some (sz 1024 1024 128)
  else if p.bids_size = 2048 ∧ p.asks_size = 2048 ∧ p.num_seats = 128 then
    some (sz 2048 2048 128)
  else if p.bids_size = 4096 ∧ p.asks_size = 4096 ∧ p.num_seats = 128 then
    some (sz 4096 4096 128)
  else none

/-- The two dispatch chains are the same function of the buffer. -/
theorem dispatch_market_mut_eq (sz : Nat → Nat → Nat → Nat)
    (p : MarketSizeParams) (bytes : List Nat) :
    dispatch_market_mut sz p bytes = dispatch_market sz p bytes := rfl

/-- Helper: the dispatch chain fails on unsupported tuples and on
wrong-length buffers. -/
theorem dispatch_market_eq_none (sz : Nat → Nat → Nat → Nat)
    (p : MarketSizeParams) (bytes : List Nat)
    (h : (p.bids_size, p.asks_size, p.num_seats) ∉ supportedTuples ∨
      bytes.length ≠ sz p.bids_size p.asks_size p.num_seats) :
    dispatch_market sz p bytes = none := by
  obtain ⟨pb, pa, ps⟩ := p
  simp only at h
  simp only [dispatch_market]
  split_ifs with h1 h2 h3 h4 h5 h6 <;>
    first
    | rfl
    | (obtain ⟨rfl, rfl, rfl⟩ := ‹_ = _ ∧ _ = _ ∧ _ = _›
       rcases h with h | h
       · exact absurd (by decide) h
       · simp [load_bytes, load_mut_bytes, h])

/-- Helper: `get_market_size` is `None` on unsupported tuples. -/
theorem get_market_size_eq_none (sz : Nat → Nat → Nat → Nat)
    (p : MarketSizeParams)
    (h : (p.bids_size, p.asks_size, p.num_seats) ∉ supportedTuples) :
    get_market_size sz p = none := by
  obtain ⟨pb, pa, ps⟩ := p
  simp only at h
  simp only [get_market_size]
  split_ifs with h1 h2 h3 h4 h5 h6 <;>
    first
    | rfl
    | (obtain ⟨rfl, rfl, rfl⟩ := ‹_ = _ ∧ _ = _ ∧ _ = _›
       exact absurd (by decide) h)

/-- C5: for every tuple outside the six supported ones, and for every
supported tuple with a buffer whose length does not fit that
instantiation, both `load_with_dispatch` and `load_with_dispatch_mut`
return `None`. -/
theorem dispatch_none_spec (sz : Nat → Nat → Nat → Nat)
    (p : MarketSizeParams) (bytes : List Nat)
    (h : (p.bids_size, p.asks_size, p.num_seats) ∉ supportedTuples ∨
      bytes.length ≠ sz p.bids_size p.asks_size p.num_seats) :
    load_with_dispatch sz p bytes = none ∧
    load_with_dispatch_mut sz p bytes = none := by
  have hd := dispatch_market_eq_none sz p bytes h
  exact ⟨hd, (dispatch_market_mut_eq sz p bytes).trans hd⟩

/-- Witness for C5 at the unsupported tuple (1, 1, 1). -/
theorem dispatch_none_spec_witness :
    ((1, 1, 1) ∉ supportedTuples ∨
      (List.replicate 5 0).length ≠ (fun b a s => b + a + s) 1 1 1) ∧
    load_with_dispatch (fun b a s => b + a + s) ⟨1, 1, 1⟩ (List.replicate 5 0) = none ∧
    load_with_dispatch_mut (fun b a s => b + a + s) ⟨1, 1, 1⟩ (List.replicate 5 0) = none := by
  have h := dispatch_none_spec (fun b a s => b + a + s) ⟨1, 1, 1⟩
    (List.replicate 5 0) (Or.inl (by decide))
  exact ⟨Or.inl (by decide), h.1, h.2⟩

/-- C6: on each supported tuple, `get_market_size` is `Some` of exactly
the byte size of the corresponding instantiation (no buffer involved);
it is `None` on every other tuple; and dispatch on a buffer of exactly
that size succeeds with a handle, both mutably and immutably. -/
theorem get_market_size_spec (sz : Nat → Nat → Nat → Nat)
    (p : MarketSizeParams)
    (hmem : (p.bids_size, p.asks_size, p.num_seats) ∈ supportedTuples) :
    get_market_size sz p = some (sz p.bids_size p.asks_size p.num_seats) ∧
    (∀ q : MarketSizeParams,
      (q.bids_size, q.asks_size, q.num_seats) ∉ supportedTuples →
      get_market_size sz q = none) ∧
    ∀ bytes : List Nat,
      bytes.length = sz p.bids_size p.asks_size p.num_seats →
      (load_with_dispatch sz p bytes).isSome = true ∧
      (load_with_dispatch_mut sz p bytes).isSome = true := by
  obtain ⟨pb, pa, ps⟩ := p
  simp only [supportedTuples, Prod.mk.injEq, List.mem_cons,
    List.not_mem_nil, or_false] at hmem
  refine ⟨?_, fun q hq => get_market_size_eq_none sz q hq, ?_⟩
  · rcases hmem with h6 | h6 | h6 | h6 | h6 | h6 <;>
      obtain ⟨rfl, rfl, rfl⟩ := h6 <;>
      norm_num [get_market_size]
  · intro bytes hlen
    simp only at hlen
    rw [load_with_dispatch, load_with_dispatch_mut, dispatch_market_mut_eq,
      and_self]
    rcases hmem with h6 | h6 | h6 | h6 | h6 | h6 <;>
      obtain ⟨rfl, rfl, rfl⟩ := h6 <;>
      norm_num [dispatch_market, load_bytes, hlen]

/-- Witness for C6 at (512, 512, 256) with the additive size model and
a buffer of exactly 1280 bytes. -/
theorem get_market_size_spec_witness :
    ((512, 512, 256) ∈ supportedTuples) ∧
    get_market_size (fun b a s => b + a + s) ⟨512, 512, 256⟩ = some 1280 ∧
    (load_with_dispatch (fun b a s => b + a + s) ⟨512, 512, 256⟩
      (List.replicate 1280 0)).isSome = true ∧
    (load_with_dispatch_mut (fun b a s => b + a + s) ⟨512, 512, 256⟩
      (List.replicate 1280 0)).isSome = true := by
  have h := get_market_size_spec (fun b a s => b + a + s) ⟨512, 512, 256⟩
    (by decide)
  have hload := h.2.2 (List.replicate 1280 0)
    (by simp only [List.length_replicate])
  refine ⟨by decide, ?_, hload.1, hload.2⟩
  have := h.1
  norm_num at this
  exact this

/-- Proof-side helper: lexicographic comparison of (price, sequence)
pairs, as produced by the final `if tick_cmp == Equal` step of
`partial_cmp`. -/
def lexCmp (p1 s1 p2 s2 : Nat) : Ordering :=
  if compare p1 p2 = Ordering.eq then compare s1 s2 else compare p1 p2

/-- On a bid-side `self`, `partial_cmp` is the reversed lexicographic
comparison (`other` against `self`). -/
theorem partialCmp_of_bid (a b : FIFOOrderId)
    (ha : Side.from_order_sequence_number a.order_sequence_number = Side.Bid) :
    FIFOOrderId.partialCmp a b =
      some (lexCmp b.num_quote_ticks_per_base_unit b.order_sequence_number
        a.num_quote_ticks_per_base_unit a.order_sequence_number) := by
  unfold FIFOOrderId.partialCmp u64PartialCmp lexCmp
  rw [ha]
  simp only [Option.some_bind]
  split <;> rfl

/-- On an ask-side `self`, `partial_cmp` is the forward lexicographic
comparison (`self` against `other`). -/
theorem partialCmp_of_ask (a b : FIFOOrderId)
    (ha : Side.from_order_sequence_number a.order_sequence_number = Side.Ask) :
    FIFOOrderId.partialCmp a b =
      some (lexCmp a.num_quote_ticks_per_base_unit a.order_sequence_number
        b.num_quote_ticks_per_base_unit b.order_sequence_number) := by
  unfold FIFOOrderId.partialCmp u64PartialCmp lexCmp
  rw [ha]
  simp only [Option.some_bind]
  split <;> rfl

theorem lexCmp_eq_lt_of_lt {p1 s1 p2 s2 : Nat} (h : p1 < p2) :
    lexCmp p1 s1 p2 s2 = Ordering.lt := by
  unfold lexCmp
  have h1 : compare p1 p2 = Ordering.lt := Nat.compare_eq_lt.mpr h
  rw [h1]
  simp

theorem lexCmp_eq_lt_of_eq_of_lt {p1 s1 p2 s2 : Nat} (hp : p1 = p2) (hs : s1 < s2) :
    lexCmp p1 s1 p2 s2 = Ordering.lt := by
  unfold lexCmp
  have h1 : compare p1 p2 = Ordering.eq := Nat.compare_eq_eq.mpr hp
  rw [h1]
  simpa using Nat.compare_eq_lt.mpr hs

theorem lexCmp_eq_eq_iff {p1 s1 p2 s2 : Nat} :
    lexCmp p1 s1 p2 s2 = Ordering.eq ↔ p1 = p2 ∧ s1 = s2 := by
  unfold lexCmp
  by_cases h : compare p1 p2 = Ordering.eq
  · rw [if_pos h]
    have hp : p1 = p2 := Nat.compare_eq_eq.mp h
    simp [hp, Nat.compare_eq_eq]
  · rw [if_neg h]
    have hp : p1 ≠ p2 := fun hc => h (Nat.compare_eq_eq.mpr hc)
    simp [h, hp]

theorem lexCmp_lt_iff_swap_gt {p1 s1 p2 s2 : Nat} :
    lexCmp p1 s1 p2 s2 = Ordering.lt ↔ lexCmp p2 s2 p1 s1 = Ordering.gt := by
  unfold lexCmp
  rcases Nat.lt_trichotomy p1 p2 with h | h | h
  · have h1 : compare p1 p2 = Ordering.lt := Nat.compare_eq_lt.mpr h
    have h2 : compare p2 p1 = Ordering.gt := Nat.compare_eq_gt.mpr h
    rw [h1, h2]
    simp
  · subst h
    have h1 : compare p1 p1 = Ordering.eq := Nat.compare_eq_eq.mpr rfl
    rw [h1]
    simp only [if_pos rfl]
    exact ⟨fun hs => Nat.compare_eq_gt.mpr (Nat.compare_eq_lt.mp hs),
      fun hs => Nat.compare_eq_lt.mpr (Nat.compare_eq_gt.mp hs)⟩
  · have h1 : compare p1 p2 = Ordering.gt := Nat.compare_eq_gt.mpr h
    have h2 : compare p2 p1 = Ordering.lt := Nat.compare_eq_lt.mpr h
    rw [h1, h2]
    simp

theorem lexCmp_lt_trans {p1 s1 p2 s2 p3 s3 : Nat}
    (h12 : lexCmp p1 s1 p2 s2 = Ordering.lt)
    (h23 : lexCmp p2 s2 p3 s3 = Ordering.lt) :
    lexCmp p1 s1 p3 s3 = Ordering.lt := by
  unfold lexCmp at *
  by_cases e12 : compare p1 p2 = Ordering.eq <;>
    by_cases e23 : compare p2 p3 = Ordering.eq
  · have hp12 : p1 = p2 := Nat.compare_eq_eq.mp e12
    have hp23 : p2 = p3 := Nat.compare_eq_eq.mp e23
    rw [if_pos e12] at h12
    rw [if_pos e23] at h23
    exact lexCmp_eq_lt_of_eq_of_lt (hp12.trans hp23)
      (lt_trans (Nat.compare_eq_lt.mp h12) (Nat.compare_eq_lt.mp h23))
  · have hp12 : p1 = p2 := Nat.compare_eq_eq.mp e12
    rw [if_neg e23] at h23
    have hp : p2 < p3 := Nat.compare_eq_lt.mp h23
    exact lexCmp_eq_lt_of_lt (hp12 ▸ hp)
  · have hp23 : p2 = p3 := Nat.compare_eq_eq.mp e23
    rw [if_neg e12] at h12
    have hp : p1 < p2 := Nat.compare_eq_lt.mp h12
    exact lexCmp_eq_lt_of_lt (hp23 ▸ hp)
  · rw [if_neg e12] at h12
    rw [if_neg e23] at h23
    exact lexCmp_eq_lt_of_lt
      (lt_trans (Nat.compare_eq_lt.mp h12) (Nat.compare_eq_lt.mp h23))

/-- C7: between two sell-side keys (top bit of the sequence number
clear), the key with the lower price sorts first, and at equal prices
the key with the lower sequence number sorts first; in particular the
ask keys (price 50, seq 10) and (price 50, seq 20) order with seq 10
first. -/
theorem ask_side_order (a b : FIFOOrderId)
    (ha : a.order_sequence_number < 2 ^ 63)
    (hb : b.order_sequence_number < 2 ^ 63) :
    (a.num_quote_ticks_per_base_unit < b.num_quote_ticks_per_base_unit →
      FIFOOrderId.partialCmp a b = some Ordering.lt) ∧
    (a.num_quote_ticks_per_base_unit = b.num_quote_ticks_per_base_unit →
      a.order_sequence_number < b.order_sequence_number →
      FIFOOrderId.partialCmp a b = some Ordering.lt) ∧
    FIFOOrderId.partialCmp ⟨50, 10⟩ ⟨50, 20⟩ = some Ordering.lt := by
  have hside := side_eq_ask_of_lt ha
  refine ⟨?_, ?_, ?_⟩
  · intro hp
    rw [partialCmp_of_ask a b hside, lexCmp_eq_lt_of_lt hp]
  · intro hp hs
    rw [partialCmp_of_ask a b hside, lexCmp_eq_lt_of_eq_of_lt hp hs]
  · have h10 : ((10 : Nat) : Nat) < 2 ^ 63 := by norm_num
    rw [partialCmp_of_ask ⟨50, 10⟩ ⟨50, 20⟩ (side_eq_ask_of_lt h10),
      lexCmp_eq_lt_of_eq_of_lt rfl (by norm_num)]

/-- Witness for C7 at the ask keys (50, 10) and (50, 20). -/
theorem ask_side_order_witness :
    (10 : Nat) < 2 ^ 63 ∧ (20 : Nat) < 2 ^ 63 ∧
    FIFOOrderId.partialCmp ⟨50, 10⟩ ⟨50, 20⟩ = some Ordering.lt := by
  have h := ask_side_order ⟨50, 10⟩ ⟨50, 20⟩ (by norm_num) (by norm_num)
  exact ⟨by norm_num, by norm_num, h.2.2⟩

/-- C1 counterexample: two buy-side keys at the same price 100 with
sequence numbers `2^63` and `2^63 + 1`.  The claim predicts the key with
the lower `order_sequence_number` sorts first (compares `Less`), but the
code compares it `Greater`: on the bid side the sequence comparison is
reversed, so the higher stored sequence number sorts first. -/
theorem bid_tie_break_counterexample :
    2 ^ 63 ≤ (2 ^ 63 : Nat) ∧ (2 ^ 63 : Nat) < 2 ^ 63 + 1 ∧
    Side.from_order_sequence_number (2 ^ 63) = Side.Bid ∧
    Side.from_order_sequence_number (2 ^ 63 + 1) = Side.Bid ∧
    FIFOOrderId.partialCmp ⟨100, 2 ^ 63⟩ ⟨100, 2 ^ 63 + 1⟩ = some Ordering.gt ∧
    FIFOOrderId.partialCmp ⟨100, 2 ^ 63⟩ ⟨100, 2 ^ 63 + 1⟩ ≠ some Ordering.lt := by
  have hb1 : Side.from_order_sequence_number (2 ^ 63) = Side.Bid :=
    side_eq_bid_of_le (le_refl _) (by norm_num)
  have hb2 : Side.from_order_sequence_number (2 ^ 63 + 1) = Side.Bid :=
    side_eq_bid_of_le (by norm_num) (by norm_num)
  have hcmp : FIFOOrderId.partialCmp ⟨100, 2 ^ 63⟩ ⟨100, 2 ^ 63 + 1⟩ =
      some Ordering.gt := by
    rw [partialCmp_of_bid ⟨100, 2 ^ 63⟩ ⟨100, 2 ^ 63 + 1⟩ hb1]
    rw [lexCmp_lt_iff_swap_gt.mp (lexCmp_eq_lt_of_eq_of_lt rfl (by norm_num))]
  exact ⟨le_refl _, by norm_num, hb1, hb2, hcmp, by rw [hcmp]; simp⟩

/-- C1 (amended): between two buy-side keys (top bit of the sequence
number set), the key with the higher price sorts first, and at equal
prices the key with the higher stored `order_sequence_number` sorts
first (bid sequence numbers are stored bit-inverted, so the higher
stored value is the earlier arrival). -/
theorem bid_side_order (a b : FIFOOrderId)
    (ha : 2 ^ 63 ≤ a.order_sequence_number)
    (ha64 : a.order_sequence_number < 2 ^ 64)
    (hb : 2 ^ 63 ≤ b.order_sequence_number)
    (hb64 : b.order_sequence_number < 2 ^ 64) :
    (b.num_quote_ticks_per_base_unit < a.num_quote_ticks_per_base_unit →
      FIFOOrderId.partialCmp a b = some Ordering.lt) ∧
    (a.num_quote_ticks_per_base_unit = b.num_quote_ticks_per_base_unit →
      b.order_sequence_number < a.order_sequence_number →
      FIFOOrderId.partialCmp a b = some Ordering.lt) := by
  have hside := side_eq_bid_of_le ha ha64
  refine ⟨?_, ?_⟩
  · intro hp
    rw [partialCmp_of_bid a b hside, lexCmp_eq_lt_of_lt hp]
  · intro hp hs
    rw [partialCmp_of_bid a b hside, lexCmp_eq_lt_of_eq_of_lt hp.symm hs]

/-- Witness for the amended C1 at bid keys (100, 2^63 + 5) and
(100, 2^63 + 2): the higher sequence number sorts first. -/
theorem bid_side_order_witness :
    2 ^ 63 ≤ (2 ^ 63 + 5 : Nat) ∧ (2 ^ 63 + 5 : Nat) < 2 ^ 64 ∧
    2 ^ 63 ≤ (2 ^ 63 + 2 : Nat) ∧ (2 ^ 63 + 2 : Nat) < 2 ^ 64 ∧
    FIFOOrderId.partialCmp ⟨100, 2 ^ 63 + 5⟩ ⟨100, 2 ^ 63 + 2⟩ =
      some Ordering.lt := by
  have h := bid_side_order ⟨100, 2 ^ 63 + 5⟩ ⟨100, 2 ^ 63 + 2⟩
    (by norm_num) (by norm_num) (by norm_num) (by norm_num)
  exact ⟨by norm_num, by norm_num, by norm_num, by norm_num,
    h.2 rfl (by norm_num)⟩

/-- C3: restricted to keys of one side (all top bits set, or all clear),
the comparison is a strict total order: `Equal` exactly on identical
keys, antisymmetric, and transitive. -/
theorem same_side_strict_total_order (a b c : FIFOOrderId)
    (hside :
      (2 ^ 63 ≤ a.order_sequence_number ∧ a.order_sequence_number < 2 ^ 64 ∧
       2 ^ 63 ≤ b.order_sequence_number ∧ b.order_sequence_number < 2 ^ 64 ∧
       2 ^ 63 ≤ c.order_sequence_number ∧ c.order_sequence_number < 2 ^ 64) ∨
      (a.order_sequence_number < 2 ^ 63 ∧ b.order_sequence_number < 2 ^ 63 ∧
       c.order_sequence_number < 2 ^ 63)) :
    (FIFOOrderId.partialCmp a b = some Ordering.eq ↔ a = b) ∧
    (FIFOOrderId.partialCmp a b = some Ordering.lt ↔
      FIFOOrderId.partialCmp b a = some Ordering.gt) ∧
    (FIFOOrderId.partialCmp a b = some Ordering.lt →
      FIFOOrderId.partialCmp b c = some Ordering.lt →
      FIFOOrderId.partialCmp a c = some Ordering.lt) := by
  have hext : ∀ x y : FIFOOrderId,
      x.num_quote_ticks_per_base_unit = y.num_quote_ticks_per_base_unit →
      x.order_sequence_number = y.order_sequence_number → x = y := by
    intro x y hp hs
    cases x
    cases y
    simp_all
  rcases hside with ⟨ha, ha64, hb, hb64, hc, hc64⟩ | ⟨ha, hb, hc⟩
  · have hsa := side_eq_bid_of_le ha ha64
    have hsb := side_eq_bid_of_le hb hb64
    rw [partialCmp_of_bid a b hsa, partialCmp_of_bid b a hsb,
      partialCmp_of_bid a c hsa, partialCmp_of_bid b c hsb]
    refine ⟨?_, ?_, ?_⟩
    · simp only [Option.some_inj]
      rw [lexCmp_eq_eq_iff]
      constructor
      · intro h
        exact (hext b a h.1 h.2).symm
      · intro h
        subst h
        exact ⟨rfl, rfl⟩
    · simp only [Option.some_inj]
      exact lexCmp_lt_iff_swap_gt
    · simp only [Option.some_inj]
      intro h1 h2
      exact lexCmp_lt_trans h2 h1
  · have hsa := side_eq_ask_of_lt ha
    have hsb := side_eq_ask_of_lt hb
    rw [partialCmp_of_ask a b hsa, partialCmp_of_ask b a hsb,
      partialCmp_of_ask a c hsa, partialCmp_of_ask b c hsb]
    refine ⟨?_, ?_, ?_⟩
    · simp only [Option.some_inj]
      rw [lexCmp_eq_eq_iff]
      constructor
      · intro h
        exact hext a b h.1 h.2
      · intro h
        subst h
        exact ⟨rfl, rfl⟩
    · simp only [Option.some_inj]
      exact lexCmp_lt_iff_swap_gt
    · simp only [Option.some_inj]
      exact lexCmp_lt_trans

/-- Witness for C3 at three ask keys. -/
theorem same_side_strict_total_order_witness :
    ((10 : Nat) < 2 ^ 63 ∧ (20 : Nat) < 2 ^ 63 ∧ (30 : Nat) < 2 ^ 63) ∧
    (FIFOOrderId.partialCmp ⟨50, 10⟩ ⟨50, 10⟩ = some Ordering.eq) := by
  refine ⟨⟨by norm_num, by norm_num, by norm_num⟩, ?_⟩
  have h := same_side_strict_total_order ⟨50, 10⟩ ⟨50, 10⟩ ⟨60, 30⟩
    (Or.inr ⟨by norm_num, by norm_num, by norm_num⟩)
  exact h.1.mpr rfl

/-- Trader identities are opaque 32-byte values (`Pubkey`), only
compared and stored; modelled by their numeric value. -/
abbrev Pubkey : Type := Nat

/-- Modelled from the spec: the reserved sentinel slot value meaning
"absent", exported by the external `sokoban` crate (its null node
index, 0). -/
def SENTINEL : Nat := 0

/-- `TraderState` (`src/market.rs` lines 431–438): the four balance
counters of a trader's seat. -/
structure TraderState where
  adjusted_quote_lots_locked : Nat
  adjusted_quote_lots_free : Nat
  base_lots_locked : Nat
  base_lots_free : Nat
deriving DecidableEq, Repr

/-- The trader registry tree (`RedBlackTree<Pubkey, TraderState,
NUM_SEATS>`), modelled by its occupied slots: key, slot index, value.
An allocated slot never carries the sentinel index; theorems take that
as an explicit hypothesis. -/
structure TraderRegistry where
  slots : List (Pubkey × Nat × TraderState)
deriving DecidableEq

/-- Modelled from the spec: `NodeAllocatorMap::get_addr` of the
external `sokoban` crate — the slot index of the key, or the sentinel
when the key is absent (§4.1 `get_address`). -/
def TraderRegistry.get_addr (reg : TraderRegistry) (trader : Pubkey) : Nat :=
  match reg.slots.find? (fun e => e.1 = trader) with
  | some e => e.2.1
  | none => SENTINEL

/-- Modelled from the spec: `NodeAllocatorMap::get` of the external
`sokoban` crate — the value stored at the key, absent when the key is
absent. -/
def TraderRegistry.get (reg : TraderRegistry) (trader : Pubkey) :
    Option TraderState :=
  (reg.slots.find? (fun e => e.1 = trader)).map fun e => e.2.2

/-- `FIFOMarket` (`src/market.rs` lines 196–223): the market state.
Each red-black tree is represented by its contents — the side books by
their ordered iteration sequences, the trader registry by its occupied
slots. -/
structure FIFOMarket where
  base_lots_per_base_unit : Nat
  quote_lots_per_tick : Nat
  order_sequence_number : Nat
  taker_fee_bps : Nat
  collected_adjusted_quote_lot_fees : Nat
  unclaimed_adjusted_quote_lot_fees : Nat
  bids : List (FIFOOrderId × FIFORestingOrder)
  asks : List (FIFOOrderId × FIFORestingOrder)
  traders : TraderRegistry
deriving DecidableEq

/-- `Market::get_trader_address` for `FIFOMarket` (`src/market.rs`
lines 238–246): look up the trader's slot index; the sentinel becomes
`None`, anything else `Some`.  The method takes `&self`; its embedding
passes the state through and returns it alongside the result. -/
def FIFOMarket.get_trader_address (m : FIFOMarket) (trader : Pubkey) :
    Option Nat × FIFOMarket :=
  let addr := m.traders.get_addr trader
  (if addr = SENTINEL then none else some addr, m)

/-- `Market::get_trader_state` for `FIFOMarket` (`src/market.rs` lines
248–251): `self.traders.get(trader)`. -/
def FIFOMarket.get_trader_state (m : FIFOMarket) (trader : Pubkey) :
    Option TraderState × FIFOMarket :=
  (m.traders.get trader, m)

/-- `Market::get_book` for `FIFOMarket` (`src/market.rs` lines
253–259): the side's tree. -/
def FIFOMarket.get_book (m : FIFOMarket) (side : Side) :
    List (FIFOOrderId × FIFORestingOrder) × FIFOMarket :=
  (match side with
   | Side.Bid => m.bids
   | Side.Ask => m.asks, m)

/-- `Market::get_registered_traders` for `FIFOMarket` (`src/market.rs`
lines 269–271). -/
def FIFOMarket.get_registered_traders (m : FIFOMarket) :
    TraderRegistry × FIFOMarket :=
  (m.traders, m)

/-- `Market::get_quote_lots_per_tick` for `FIFOMarket`
(`src/market.rs` lines 265–267). -/
def FIFOMarket.get_quote_lots_per_tick (m : FIFOMarket) :
    Nat × FIFOMarket :=
  (m.quote_lots_per_tick, m)

/-- `Market::get_base_lots_per_base_unit` for `FIFOMarket`
(`src/market.rs` lines 261–263). -/
def FIFOMarket.get_base_lots_per_base_unit (m : FIFOMarket) :
    Nat × FIFOMarket :=
  (m.base_lots_per_base_unit, m)

/-- `Market::get_ladder` dispatched through `FIFOMarket`'s books
(`src/market.rs` lines 84–119 with the `get_book` of lines 253–259). -/
def FIFOMarket.get_ladder (m : FIFOMarket) (levels : Nat) :
    Ladder × FIFOMarket :=
  (Phoenix.get_ladder levels (m.get_book Side.Bid).1 (m.get_book Side.Ask).1, m)

/-- C8: `get_trader_address` returns `None` exactly when the registry
lookup yields the sentinel, which under the allocator invariant (no
occupied slot carries the sentinel index) is exactly when the trader is
absent; otherwise it returns `Some` of the non-sentinel slot index.
`get_trader_state` likewise returns `None` exactly when the trader is
absent. -/
theorem get_trader_address_spec (m : FIFOMarket) (trader : Pubkey)
    (hinv : ∀ e ∈ m.traders.slots, e.2.1 ≠ SENTINEL) :
    ((m.get_trader_address trader).1 = none ↔
      m.traders.get_addr trader = SENTINEL) ∧
    ((m.get_trader_address trader).1 = none ↔
      m.traders.get trader = none) ∧
    (∀ a, (m.get_trader_address trader).1 = some a →
      a = m.traders.get_addr trader ∧ a ≠ SENTINEL) ∧
    ((m.get_trader_state trader).1 = none ↔ m.traders.get trader = none) := by
  cases hf : m.traders.slots.find? (fun e => e.1 = trader) with
  | none =>
    refine ⟨?_, ?_, ?_, Iff.rfl⟩ <;>
      simp [FIFOMarket.get_trader_address, TraderRegistry.get_addr,
        TraderRegistry.get, hf]
  | some e =>
    have hne : e.2.1 ≠ SENTINEL := hinv e (List.mem_of_find?_eq_some hf)
    refine ⟨?_, ?_, ?_, Iff.rfl⟩ <;>
      simp [FIFOMarket.get_trader_address, TraderRegistry.get_addr,
        TraderRegistry.get, hf, hne]

/-- Witness for C8 on a one-slot registry holding trader 7 at slot 3. -/
theorem get_trader_address_spec_witness :
    (∀ e ∈ (⟨0, 0, 0, 0, 0, 0, [], [],
        ⟨[(7, 3, ⟨0, 0, 0, 0⟩)]⟩⟩ : FIFOMarket).traders.slots,
      e.2.1 ≠ SENTINEL) ∧
    ((⟨0, 0, 0, 0, 0, 0, [], [],
        ⟨[(7, 3, ⟨0, 0, 0, 0⟩)]⟩⟩ : FIFOMarket).get_trader_address 7).1 =
      some 3 := by
  have hinv : ∀ e ∈ (⟨0, 0, 0, 0, 0, 0, [], [],
      ⟨[(7, 3, ⟨0, 0, 0, 0⟩)]⟩⟩ : FIFOMarket).traders.slots,
      e.2.1 ≠ SENTINEL := by
    intro e he
    simp only [List.mem_cons, List.not_mem_nil, or_false] at he
    subst he
    simp [SENTINEL]
  have h := get_trader_address_spec
    (⟨0, 0, 0, 0, 0, 0, [], [], ⟨[(7, 3, ⟨0, 0, 0, 0⟩)]⟩⟩ : FIFOMarket) 7 hinv
  refine ⟨hinv, ?_⟩
  cases ha : ((⟨0, 0, 0, 0, 0, 0, [], [],
      ⟨[(7, 3, ⟨0, 0, 0, 0⟩)]⟩⟩ : FIFOMarket).get_trader_address 7).1 with
  | none =>
    have := (h.1.mp ha)
    simp [TraderRegistry.get_addr, List.find?, SENTINEL] at this
  | some a =>
    obtain ⟨haddr, -⟩ := h.2.2.1 a ha
    subst haddr
    simp [TraderRegistry.get_addr, List.find?]

/-- C9: every read operation of the capability surface — `get_ladder`,
`get_book`, `get_registered_traders`, `get_trader_address`,
`get_trader_state`, `get_quote_lots_per_tick`,
`get_base_lots_per_base_unit` — leaves the market state unchanged. -/
theorem read_operations_leave_state_unchanged (m : FIFOMarket)
    (levels : Nat) (side : Side) (trader : Pubkey) :
    (m.get_ladder levels).2 = m ∧
    (m.get_book side).2 = m ∧
    m.get_registered_traders.2 = m ∧
    (m.get_trader_address trader).2 = m ∧
    (m.get_trader_state trader).2 = m ∧
    m.get_quote_lots_per_tick.2 = m ∧
    m.get_base_lots_per_base_unit.2 = m :=
  ⟨rfl, rfl, rfl, rfl, rfl, rfl, rfl⟩

end Phoenix
